import Mathlib

/-!
Verification of the git-dual-context analysis engine.

This file gives a shallow embedding, in Lean 4, of the core functions of the
repository (package analyzer and the gitdiff helpers) and proves the behavioural
properties claimed by the specification.  Strings are modelled as their
character lists (the Go code only manipulates ASCII text in the relevant
functions, where one byte is one character); Go errors are modelled as
Option/Except values; the collaborators (go-git tree diffs, the reasoning
service, JSON decoding) are oracle parameters, so that each embedded function
mirrors the control flow of its Go source exactly.
-/

namespace GitDual

/-! ## String helpers (structural stand-ins for the Go strings package)

The Go code uses strings.Split, strings.Contains, strings.HasSuffix and
friends.  Lean 4's String functions do not reduce inside the kernel, so we
mirror them with structural recursion on character lists.
-/

/-- strings.Split for a one-character separator. -/
def splitOnChar (c : Char) : List Char → List (List Char)
  | [] => [[]]
  | a :: rest =>
    if a == c then [] :: splitOnChar c rest
    else
      match splitOnChar c rest with
      | [] => [[a]]
      | h :: t => (a :: h) :: t

/-- listStarts hay needle: needle is an initial segment of hay
(strings.HasPrefix hay needle). -/
def listStarts : List Char → List Char → Bool
  | _, [] => true
  | [], _ :: _ => false
  | a :: s, b :: t => a == b && listStarts s t

/-- strings.Contains hay needle. -/
def listHasSub : List Char → List Char → Bool
  | [], needle => needle.isEmpty
  | a :: rest, needle => listStarts (a :: rest) needle || listHasSub rest needle

/-- strings.HasSuffix hay needle. -/
def listEnds (hay needle : List Char) : Bool :=
  listStarts hay.reverse needle.reverse

/-- strings.LastIndex hay c for a one-character needle: index of the last
occurrence, none where Go returns -1. -/
def lastIndexOfChar : List Char → Char → Option Nat
  | [], _ => none
  | a :: rest, c =>
    match lastIndexOfChar rest c with
    | some i => some (i + 1)
    | none => if a == c then some 0 else none

/-- strings.Index hay c for a one-character needle: index of the first
occurrence, none where Go returns -1. -/
def firstIndexOfChar (l : List Char) (c : Char) : Option Nat :=
  l.findIdx? (fun a => a == c)

/-- strings.ToUpper (the inputs of interest are ASCII). -/
def strToUpper (s : List Char) : List Char := s.map Char.toUpper

/-- strings.ToLower (the inputs of interest are ASCII). -/
def strToLower (s : List Char) : List Char := s.map Char.toLower

theorem lastIndexOfChar_lt_length {l : List Char} {c : Char} {i : Nat}
    (h : lastIndexOfChar l c = some i) : i < l.length := by
  induction l generalizing i with
  | nil => simp [lastIndexOfChar] at h
  | cons a rest ih =>
    rw [lastIndexOfChar] at h
    cases hrest : lastIndexOfChar rest c with
    | some j =>
      rw [hrest] at h
      cases h
      have := ih hrest
      simp
      omega
    | none =>
      rw [hrest] at h
      by_cases ha : (a == c) = true
      · simp [ha] at h
        subst h
        simp
      · simp [ha] at h

/-! ## Probability (src/pkg/analyzer/engine.go, Probability.UnmarshalJSON)

The Go type Probability is a string type; the three canonical values are the
constants below.  UnmarshalJSON first decodes the JSON value into a Go string
s (failing for non-strings, in which case no value is produced at all) and
then normalises s with the switch mirrored here.
-/

def ProbHigh : List Char := "HIGH".toList

def ProbMedium : List Char := "MEDIUM".toList

def ProbLow : List Char := "LOW".toList

/-- Probability.UnmarshalJSON, after json.Unmarshal has produced the plain
string s: switch strings.ToUpper(s). -/
def Probability.UnmarshalJSON (s : List Char) : List Char :=
  if strToUpper s = "HIGH".toList then ProbHigh
  else if strToUpper s = "MEDIUM".toList then ProbMedium
  else if strToUpper s = "MED".toList then ProbMedium
  else ProbLow

/-- C8: every JSON-decoded tier string normalises to exactly one of the three
canonical values HIGH, MEDIUM, LOW; the comparison is case-insensitive (the
result depends on the input only through strings.ToUpper of it), and every
unrecognized string maps to LOW; no input produces a fourth value. -/
theorem probability_unmarshal_three_values (s : List Char) :
    (Probability.UnmarshalJSON s = ProbHigh ∨
     Probability.UnmarshalJSON s = ProbMedium ∨
     Probability.UnmarshalJSON s = ProbLow)
    ∧ (∀ t : List Char, strToUpper s = strToUpper t →
        Probability.UnmarshalJSON s = Probability.UnmarshalJSON t)
    ∧ (strToUpper s ≠ "HIGH".toList → strToUpper s ≠ "MEDIUM".toList →
        strToUpper s ≠ "MED".toList → Probability.UnmarshalJSON s = ProbLow) := by
  refine ⟨?_, ?_, ?_⟩
  · unfold Probability.UnmarshalJSON
    split
    · exact Or.inl rfl
    · split
      · exact Or.inr (Or.inl rfl)
      · split
        · exact Or.inr (Or.inl rfl)
        · exact Or.inr (Or.inr rfl)
  · intro t h
    unfold Probability.UnmarshalJSON
    rw [h]
  · intro h1 h2 h3
    unfold Probability.UnmarshalJSON
    rw [if_neg h1, if_neg h2, if_neg h3]

/-! ## TruncateCommitMessage (src/pkg/analyzer/utils.go) -/

/-- The first line of a commit message: Go slices message[:idx] at the first
newline (strings.Index), or keeps the whole message when there is none. -/
def firstLineOf (message : List Char) : List Char :=
  match firstIndexOfChar message '\n' with
  | some idx => message.take idx
  | none => message

/-- TruncateCommitMessage: keep only the first line of the message and cap it
at maxLength characters, appending "..." when the cap removed something and
maxLength leaves room for it. -/
def TruncateCommitMessage (message : List Char) (maxLength : Nat) : List Char :=
  let firstLine := firstLineOf message
  if maxLength < firstLine.length then
    if maxLength ≤ 3 then firstLine.take maxLength
    else firstLine.take (maxLength - 3) ++ "...".toList
  else firstLine

theorem firstLineOf_eq_takeWhile (message : List Char) :
    firstLineOf message = message.takeWhile (fun c => !(c == '\n')) := by
  induction message with
  | nil => simp [firstLineOf, firstIndexOfChar]
  | cons a rest ih =>
    by_cases ha : (a == '\n') = true
    · simp only [firstLineOf, firstIndexOfChar, List.findIdx?_cons, ha, cond_true]
      simp [List.takeWhile_cons, ha]
    · simp only [firstLineOf, firstIndexOfChar, List.findIdx?_cons, ha, cond_false]
      simp only [firstLineOf, firstIndexOfChar] at ih
      cases hrest : List.findIdx? (fun c => c == '\n') rest with
      | some j =>
        rw [hrest] at ih
        simp [List.takeWhile_cons, ha, ← ih, hrest]
      | none =>
        rw [hrest] at ih
        simp [List.takeWhile_cons, ha, ← ih, hrest]

theorem newline_not_mem_firstLineOf (message : List Char) :
    '\n' ∉ firstLineOf message := by
  rw [firstLineOf_eq_takeWhile]
  intro hmem
  have := List.mem_takeWhile_imp hmem
  simp at this

/-- C10: the truncated commit message contains no newline, its length never
exceeds maxLength, a first line already within the cap is returned unchanged,
and a truncation under maxLength > 3 ends with "...". -/
theorem truncateCommitMessage_spec (message : List Char) (maxLength : Nat) :
    '\n' ∉ TruncateCommitMessage message maxLength
    ∧ (TruncateCommitMessage message maxLength).length ≤ maxLength
    ∧ ((firstLineOf message).length ≤ maxLength →
        TruncateCommitMessage message maxLength = firstLineOf message)
    ∧ (3 < maxLength → maxLength < (firstLineOf message).length →
        "...".toList <:+ TruncateCommitMessage message maxLength) := by
  have hnl := newline_not_mem_firstLineOf message
  refine ⟨?_, ?_, ?_, ?_⟩
  · unfold TruncateCommitMessage
    by_cases h1 : maxLength < (firstLineOf message).length
    · rw [if_pos h1]
      by_cases h2 : maxLength ≤ 3
      · rw [if_pos h2]
        intro hmem
        exact hnl (List.mem_of_mem_take hmem)
      · rw [if_neg h2]
        intro hmem
        rcases List.mem_append.mp hmem with h | h
        · exact hnl (List.mem_of_mem_take h)
        · simp at h
    · rw [if_neg h1]
      exact hnl
  · unfold TruncateCommitMessage
    by_cases h1 : maxLength < (firstLineOf message).length
    · rw [if_pos h1]
      by_cases h2 : maxLength ≤ 3
      · rw [if_pos h2]
        exact List.length_take_le _ _
      · rw [if_neg h2]
        rw [List.length_append]
        have h3 : ("...".toList).length = 3 := rfl
        rw [h3]
        have hle : (List.take (maxLength - 3) (firstLineOf message)).length ≤
            maxLength - 3 := List.length_take_le _ _
        omega
    · rw [if_neg h1]
      omega
  · intro h
    unfold TruncateCommitMessage
    rw [if_neg (by omega)]
  · intro h3 hlen
    unfold TruncateCommitMessage
    rw [if_pos (by omega), if_neg (by omega)]
    exact ⟨_, rfl⟩

/-! ## TruncateDiff (src/pkg/analyzer/engine.go, gitdiff section)

Go's len and slicing count bytes; the diff text of interest is ASCII, where
one byte is one character, so the character-list model is exact.  maxSize is
a Go int and may be zero or negative, hence Int.
-/

def MaxDiffSize : Nat := 50000

def TruncationMarker : List Char := "\n... [truncated: diff too large] ...\n".toList

/-- TruncateDiff limits diff size: a diff within maxSize is unchanged; when
maxSize does not even fit the marker the diff is hard-cut bare (empty for a
non-positive maxSize); otherwise the cut point is maxSize minus the marker
length, pulled back to the last newline of that prefix whenever that newline
lies strictly past the midpoint of the prefix, and the marker is appended. -/
def TruncateDiff (diff : List Char) (maxSize : Int) : List Char :=
  if (diff.length : Int) ≤ maxSize then diff
  else if maxSize ≤ (TruncationMarker.length : Int) then
    if maxSize ≤ 0 then [] else diff.take maxSize.toNat
  else
    let truncateAt := maxSize.toNat - TruncationMarker.length
    let cutAt :=
      match lastIndexOfChar (diff.take truncateAt) '\n' with
      | some i => if truncateAt / 2 < i then i else truncateAt
      | none => truncateAt
    diff.take cutAt ++ TruncationMarker

/-- C6: a diff at or under the threshold is unmodified; over the threshold
with room for the marker, the result ends with the marker, stays within the
threshold, and the cut point moves back to the last preceding newline exactly
when that newline lies past the midpoint of the truncated region; with a
threshold not larger than the marker the result degrades to the bare prefix,
empty for a non-positive threshold. -/
theorem truncateDiff_spec (d : List Char) (m : Int) :
    ((d.length : Int) ≤ m → TruncateDiff d m = d)
    ∧ (m < (d.length : Int) → m ≤ (TruncationMarker.length : Int) →
        TruncateDiff d m = if m ≤ 0 then [] else d.take m.toNat)
    ∧ (m < (d.length : Int) → (TruncationMarker.length : Int) < m →
        (TruncationMarker <:+ TruncateDiff d m)
        ∧ ((TruncateDiff d m).length : Int) ≤ m
        ∧ (∀ i, lastIndexOfChar (d.take (m.toNat - TruncationMarker.length)) '\n'
              = some i →
            TruncateDiff d m =
              if (m.toNat - TruncationMarker.length) / 2 < i
              then d.take i ++ TruncationMarker
              else d.take (m.toNat - TruncationMarker.length) ++ TruncationMarker)
        ∧ (lastIndexOfChar (d.take (m.toNat - TruncationMarker.length)) '\n'
              = none →
            TruncateDiff d m =
              d.take (m.toNat - TruncationMarker.length) ++ TruncationMarker)) := by
  refine ⟨?_, ?_, ?_⟩
  · intro h
    unfold TruncateDiff
    rw [if_pos h]
  · intro h1 h2
    unfold TruncateDiff
    rw [if_neg (by omega), if_pos h2]
  · intro h1 h2
    have hmlen : TruncationMarker.length = 37 := by decide
    have hm0 : (0 : Int) < m := by omega
    have hmnat : (m.toNat : Int) = m := Int.toNat_of_nonneg (by omega)
    have hmnat37 : 37 < m.toNat := by omega
    have hmain : TruncateDiff d m =
        d.take (match lastIndexOfChar (d.take (m.toNat - TruncationMarker.length)) '\n' with
                | some i => if (m.toNat - TruncationMarker.length) / 2 < i then i
                            else (m.toNat - TruncationMarker.length)
                | none => (m.toNat - TruncationMarker.length)) ++ TruncationMarker := by
      unfold TruncateDiff
      rw [if_neg (by omega), if_neg (by omega)]
    refine ⟨?_, ?_, ?_, ?_⟩
    · rw [hmain]
      exact ⟨_, rfl⟩
    · rw [hmain]
      have hcut : (match lastIndexOfChar (d.take (m.toNat - TruncationMarker.length)) '\n' with
          | some i => if (m.toNat - TruncationMarker.length) / 2 < i then i
                      else (m.toNat - TruncationMarker.length)
          | none => (m.toNat - TruncationMarker.length))
          ≤ m.toNat - TruncationMarker.length := by
        cases hidx : lastIndexOfChar (d.take (m.toNat - TruncationMarker.length)) '\n' with
        | some i =>
          have hlt := lastIndexOfChar_lt_length hidx
          have := List.length_take_le (m.toNat - TruncationMarker.length) d
          simp only
          split
          · omega
          · omega
        | none => simp
      rw [List.length_append]
      have htk := List.length_take_le (match lastIndexOfChar (d.take (m.toNat - TruncationMarker.length)) '\n' with
          | some i => if (m.toNat - TruncationMarker.length) / 2 < i then i
                      else (m.toNat - TruncationMarker.length)
          | none => (m.toNat - TruncationMarker.length)) d
      omega
    · intro i hidx
      rw [hmain, hidx]
      by_cases hc : (m.toNat - TruncationMarker.length) / 2 < i
      · simp [hc]
      · simp [hc]
    · intro hidx
      rw [hmain, hidx]

/-! ## Analysis results and run summaries

AnalysisResult is the engine's per-commit result (src/pkg/analyzer/engine.go);
its Skipped field carries the json:"-" tag, so JSON decoding never sets it.
CommitAnalysisResult pairs a result pointer with an error, as in
src/pkg/analyzer/orchestrator.go (nil pointers are none).
-/

structure AnalysisResult where
  Probability : List Char
  Reasoning : List Char
  Skipped : Bool
deriving Repr, DecidableEq

/-- The value AnalyzeCommit returns for a commit with no relevant changes:
Go's &AnalysisResult\x7bSkipped: true\x7d, whose other fields are zero. -/
def skippedResult : AnalysisResult := ⟨[], [], true⟩

structure CommitAnalysisResult where
  Result : Option AnalysisResult
  Error : Option (List Char)
deriving Repr, DecidableEq

structure AnalysisSummary where
  Total : Nat
  High : Nat
  Medium : Nat
  Low : Nat
  Skipped : Nat
  Errors : Nat
deriving Repr, DecidableEq

/-- One iteration of CalculateSummary's loop over the results
(src/pkg/analyzer/orchestrator.go): an error counts as Errors, a nil result
counts as Errors, a skipped result as Skipped, and otherwise the switch on
Probability bumps the matching tier (no default case). -/
def tallyResult (s : AnalysisSummary) (r : CommitAnalysisResult) : AnalysisSummary :=
  match r.Error with
  | some _ => { s with Errors := s.Errors + 1 }
  | none =>
    match r.Result with
    | none => { s with Errors := s.Errors + 1 }
    | some res =>
      if res.Skipped then { s with Skipped := s.Skipped + 1 }
      else if res.Probability = ProbHigh then { s with High := s.High + 1 }
      else if res.Probability = ProbMedium then { s with Medium := s.Medium + 1 }
      else if res.Probability = ProbLow then { s with Low := s.Low + 1 }
      else s

/-- CalculateSummary: Total is len(results) and the counters are accumulated
over the whole result list. -/
def CalculateSummary (results : List CommitAnalysisResult) : AnalysisSummary :=
  results.foldl tallyResult ⟨results.length, 0, 0, 0, 0, 0⟩

/-- commitResultInternal of cmd/mcp-server/internal/tools/rootcause.go,
keeping the fields the summary loop reads. -/
structure CommitResultInternal where
  result : Option AnalysisResult
  err : Option (List Char)
deriving Repr, DecidableEq

/-- One iteration of AnalyzeRootCause's output loop over the results
(src/cmd/mcp-server/internal/tools/rootcause.go): the same branch structure
as tallyResult. -/
def rootCauseTally (s : AnalysisSummary) (r : CommitResultInternal) : AnalysisSummary :=
  match r.err with
  | some _ => { s with Errors := s.Errors + 1 }
  | none =>
    match r.result with
    | none => { s with Errors := s.Errors + 1 }
    | some res =>
      if res.Skipped then { s with Skipped := s.Skipped + 1 }
      else if res.Probability = ProbHigh then { s with High := s.High + 1 }
      else if res.Probability = ProbMedium then { s with Medium := s.Medium + 1 }
      else if res.Probability = ProbLow then { s with Low := s.Low + 1 }
      else s

/-- The summary AnalyzeRootCause builds: Summary.Total is len(commits), and
the results slice has exactly one slot per collected commit (extraction
errors and skipped commits are filled in before dispatch, every dispatched
worker fills its own slot), so Total is the length of the result list. -/
def AnalyzeRootCauseSummary (results : List CommitResultInternal) : AnalysisSummary :=
  results.foldl rootCauseTally ⟨results.length, 0, 0, 0, 0, 0⟩

/-- An outcome of one of the four terminal kinds the claim enumerates: an
error, a nil result, a skipped result, or a tiered result. -/
def wellFormedOutcome (r : CommitAnalysisResult) : Bool :=
  match r.Error, r.Result with
  | some _, _ => true
  | none, none => true
  | none, some res =>
    res.Skipped || res.Probability == ProbHigh || res.Probability == ProbMedium
      || res.Probability == ProbLow

def wellFormedInternal (r : CommitResultInternal) : Bool :=
  match r.err, r.result with
  | some _, _ => true
  | none, none => true
  | none, some res =>
    res.Skipped || res.Probability == ProbHigh || res.Probability == ProbMedium
      || res.Probability == ProbLow

def countSum (s : AnalysisSummary) : Nat :=
  s.High + s.Medium + s.Low + s.Skipped + s.Errors

theorem tallyResult_total (s : AnalysisSummary) (r : CommitAnalysisResult) :
    (tallyResult s r).Total = s.Total := by
  rcases r with ⟨res, err⟩
  cases err with
  | some e => simp [tallyResult]
  | none =>
    cases res with
    | none => simp [tallyResult]
    | some a =>
      simp only [tallyResult]
      split
      · rfl
      · split
        · rfl
        · split
          · rfl
          · split
            · rfl
            · rfl

theorem tallyResult_countSum (s : AnalysisSummary) (r : CommitAnalysisResult)
    (h : wellFormedOutcome r = true) :
    countSum (tallyResult s r) = countSum s + 1 := by
  rcases r with ⟨res, err⟩
  cases err with
  | some e =>
    simp [tallyResult, countSum]
    omega
  | none =>
    cases res with
    | none =>
      simp [tallyResult, countSum]
      omega
    | some a =>
      simp only [wellFormedOutcome, Bool.or_eq_true, beq_iff_eq] at h
      simp only [tallyResult]
      by_cases hs : a.Skipped = true
      · rw [if_pos hs]
        simp [countSum]
        omega
      · rw [if_neg hs]
        by_cases hH : a.Probability = ProbHigh
        · rw [if_pos hH]
          simp [countSum]
          omega
        · rw [if_neg hH]
          by_cases hM : a.Probability = ProbMedium
          · rw [if_pos hM]
            simp [countSum]
            omega
          · rw [if_neg hM]
            by_cases hL : a.Probability = ProbLow
            · rw [if_pos hL]
              simp [countSum]
              omega
            · exact absurd h (by simp [hs, hH, hM, hL])

theorem rootCauseTally_total (s : AnalysisSummary) (r : CommitResultInternal) :
    (rootCauseTally s r).Total = s.Total := by
  have : rootCauseTally s r = tallyResult s ⟨r.result, r.err⟩ := by
    simp [rootCauseTally, tallyResult]
  rw [this, tallyResult_total]

theorem rootCauseTally_countSum (s : AnalysisSummary) (r : CommitResultInternal)
    (h : wellFormedInternal r = true) :
    countSum (rootCauseTally s r) = countSum s + 1 := by
  have heq : rootCauseTally s r = tallyResult s ⟨r.result, r.err⟩ := by
    simp [rootCauseTally, tallyResult]
  rw [heq]
  apply tallyResult_countSum
  simpa [wellFormedInternal, wellFormedOutcome] using h

theorem foldl_tallyResult_spec (results : List CommitAnalysisResult) :
    ∀ s : AnalysisSummary, (∀ r ∈ results, wellFormedOutcome r = true) →
      countSum (results.foldl tallyResult s) = countSum s + results.length
      ∧ (results.foldl tallyResult s).Total = s.Total := by
  induction results with
  | nil => intro s _; simp
  | cons a rest ih =>
    intro s h
    have ha : wellFormedOutcome a = true := h a (by simp)
    have hrest : ∀ r ∈ rest, wellFormedOutcome r = true := by
      intro r hr
      exact h r (by simp [hr])
    rcases ih (tallyResult s a) hrest with ⟨h1, h2⟩
    constructor
    · simp only [List.foldl_cons, h1, tallyResult_countSum s a ha, List.length_cons]
      omega
    · simp only [List.foldl_cons, h2, tallyResult_total]

theorem foldl_rootCauseTally_spec (results : List CommitResultInternal) :
    ∀ s : AnalysisSummary, (∀ r ∈ results, wellFormedInternal r = true) →
      countSum (results.foldl rootCauseTally s) = countSum s + results.length
      ∧ (results.foldl rootCauseTally s).Total = s.Total := by
  induction results with
  | nil => intro s _; simp
  | cons a rest ih =>
    intro s h
    have ha : wellFormedInternal a = true := h a (by simp)
    have hrest : ∀ r ∈ rest, wellFormedInternal r = true := by
      intro r hr
      exact h r (by simp [hr])
    rcases ih (rootCauseTally s a) hrest with ⟨h1, h2⟩
    constructor
    · simp only [List.foldl_cons, h1, rootCauseTally_countSum s a ha, List.length_cons]
      omega
    · simp only [List.foldl_cons, h2, rootCauseTally_total]

/-- C2: for a run over N commits whose per-commit outcomes are each an error,
a nil result, a skipped result or a tiered result, both aggregations satisfy
high + medium + low + skipped + errors = total and total = N (the number of
aggregated per-commit results). -/
theorem summary_accounting (results : List CommitAnalysisResult)
    (rcResults : List CommitResultInternal)
    (h1 : ∀ r ∈ results, wellFormedOutcome r = true)
    (h2 : ∀ r ∈ rcResults, wellFormedInternal r = true) :
    ((CalculateSummary results).High + (CalculateSummary results).Medium
        + (CalculateSummary results).Low + (CalculateSummary results).Skipped
        + (CalculateSummary results).Errors = (CalculateSummary results).Total
      ∧ (CalculateSummary results).Total = results.length)
    ∧ ((AnalyzeRootCauseSummary rcResults).High
        + (AnalyzeRootCauseSummary rcResults).Medium
        + (AnalyzeRootCauseSummary rcResults).Low
        + (AnalyzeRootCauseSummary rcResults).Skipped
        + (AnalyzeRootCauseSummary rcResults).Errors
        = (AnalyzeRootCauseSummary rcResults).Total
      ∧ (AnalyzeRootCauseSummary rcResults).Total = rcResults.length) := by
  rcases foldl_tallyResult_spec results ⟨results.length, 0, 0, 0, 0, 0⟩ h1 with ⟨ha, hb⟩
  rcases foldl_rootCauseTally_spec rcResults ⟨rcResults.length, 0, 0, 0, 0, 0⟩ h2
    with ⟨hc, hd⟩
  simp only [CalculateSummary, AnalyzeRootCauseSummary]
  simp only [countSum] at ha hc
  refine ⟨⟨?_, ?_⟩, ⟨?_, ?_⟩⟩
  · rw [ha, hb]
    simp
  · rw [hb]
  · rw [hc, hd]
    simp
  · rw [hd]

/-- C2 witness: a concrete mixed run, two tiered results, one skipped, one
nil result and one error, on both aggregation paths. -/
theorem summary_accounting_witness :
    ((CalculateSummary [⟨some ⟨ProbHigh, "r1".toList, false⟩, none⟩,
        ⟨some ⟨ProbLow, "r2".toList, false⟩, none⟩,
        ⟨some skippedResult, none⟩,
        ⟨none, none⟩,
        ⟨none, some "boom".toList⟩]).High
      + (CalculateSummary [⟨some ⟨ProbHigh, "r1".toList, false⟩, none⟩,
        ⟨some ⟨ProbLow, "r2".toList, false⟩, none⟩,
        ⟨some skippedResult, none⟩,
        ⟨none, none⟩,
        ⟨none, some "boom".toList⟩]).Medium
      + (CalculateSummary [⟨some ⟨ProbHigh, "r1".toList, false⟩, none⟩,
        ⟨some ⟨ProbLow, "r2".toList, false⟩, none⟩,
        ⟨some skippedResult, none⟩,
        ⟨none, none⟩,
        ⟨none, some "boom".toList⟩]).Low
      + (CalculateSummary [⟨some ⟨ProbHigh, "r1".toList, false⟩, none⟩,
        ⟨some ⟨ProbLow, "r2".toList, false⟩, none⟩,
        ⟨some skippedResult, none⟩,
        ⟨none, none⟩,
        ⟨none, some "boom".toList⟩]).Skipped
      + (CalculateSummary [⟨some ⟨ProbHigh, "r1".toList, false⟩, none⟩,
        ⟨some ⟨ProbLow, "r2".toList, false⟩, none⟩,
        ⟨some skippedResult, none⟩,
        ⟨none, none⟩,
        ⟨none, some "boom".toList⟩]).Errors
      = (CalculateSummary [⟨some ⟨ProbHigh, "r1".toList, false⟩, none⟩,
        ⟨some ⟨ProbLow, "r2".toList, false⟩, none⟩,
        ⟨some skippedResult, none⟩,
        ⟨none, none⟩,
        ⟨none, some "boom".toList⟩]).Total
    ∧ (CalculateSummary [⟨some ⟨ProbHigh, "r1".toList, false⟩, none⟩,
        ⟨some ⟨ProbLow, "r2".toList, false⟩, none⟩,
        ⟨some skippedResult, none⟩,
        ⟨none, none⟩,
        ⟨none, some "boom".toList⟩]).Total = 5)
    ∧ ((AnalyzeRootCauseSummary [⟨some ⟨ProbMedium, "r3".toList, false⟩, none⟩,
        ⟨none, some "fail".toList⟩]).High
      + (AnalyzeRootCauseSummary [⟨some ⟨ProbMedium, "r3".toList, false⟩, none⟩,
        ⟨none, some "fail".toList⟩]).Medium
      + (AnalyzeRootCauseSummary [⟨some ⟨ProbMedium, "r3".toList, false⟩, none⟩,
        ⟨none, some "fail".toList⟩]).Low
      + (AnalyzeRootCauseSummary [⟨some ⟨ProbMedium, "r3".toList, false⟩, none⟩,
        ⟨none, some "fail".toList⟩]).Skipped
      + (AnalyzeRootCauseSummary [⟨some ⟨ProbMedium, "r3".toList, false⟩, none⟩,
        ⟨none, some "fail".toList⟩]).Errors
      = (AnalyzeRootCauseSummary [⟨some ⟨ProbMedium, "r3".toList, false⟩, none⟩,
        ⟨none, some "fail".toList⟩]).Total
    ∧ (AnalyzeRootCauseSummary [⟨some ⟨ProbMedium, "r3".toList, false⟩, none⟩,
        ⟨none, some "fail".toList⟩]).Total = 2) := by
  have h := summary_accounting
    [⟨some ⟨ProbHigh, "r1".toList, false⟩, none⟩,
     ⟨some ⟨ProbLow, "r2".toList, false⟩, none⟩,
     ⟨some skippedResult, none⟩,
     ⟨none, none⟩,
     ⟨none, some "boom".toList⟩]
    [⟨some ⟨ProbMedium, "r3".toList, false⟩, none⟩,
     ⟨none, some "fail".toList⟩]
    (by decide) (by decide)
  exact h

/-! ## Retry with exponential backoff (src/pkg/analyzer/retry.go)

A Go error is modelled by the three observations IsRetryable makes of it:
whether errors.Is(err, context.DeadlineExceeded) holds, the googleapi.Error
status code when errors.As matches one, and the error message.  The wrapped
operation fn is an oracle giving the outcome of its n-th invocation (counted
from 0, none = nil error); ctxDone n tells whether the run-wide context is
already cancelled when the n-th backoff sleep waits on it.  Backoff delays
are real time and are not observable in this model; the trace counts how
often fn was invoked and how many backoff sleeps completed.
-/

structure RetryConfig where
  MaxRetries : Nat
  BaseDelay : Nat
  MaxDelay : Nat
deriving Repr, DecidableEq

/-- DefaultRetryConfig: 3 retries, 1s base delay, 30s max delay, in
milliseconds. -/
def DefaultRetryConfig : RetryConfig := ⟨3, 1000, 30000⟩

structure GoError where
  isDeadlineExceeded : Bool
  apiCode : Option Nat
  msg : List Char
deriving Repr, DecidableEq

def retryableMessages : List (List Char) :=
  ["connection reset".toList, "connection refused".toList, "no such host".toList,
   "timeout".toList, "temporary failure".toList]

/-- IsRetryable: nil is not retryable; a deadline-exceeded error is; a Google
API error with code 429 or 500/502/503/504 is; otherwise the lower-cased
message is scanned for the transient-network phrases. -/
def IsRetryable : Option GoError → Bool
  | none => false
  | some e =>
    if e.isDeadlineExceeded then true
    else if (match e.apiCode with
             | some c => [429, 500, 502, 503, 504].contains c
             | none => false) then true
    else retryableMessages.any (fun m => listHasSub (strToLower e.msg) m)

inductive RetryOutcome where
  /-- fn returned nil: WithRetry returns nil. -/
  | success : RetryOutcome
  /-- a non-retryable error, returned to the caller unmodified. -/
  | failed : GoError → RetryOutcome
  /-- ctx.Done fired during a backoff sleep: WithRetry returns ctx.Err(). -/
  | canceled : RetryOutcome
  /-- attempts exhausted: the last observed error, wrapped in the
  "max retries exceeded" message that marks retry exhaustion. -/
  | exhausted : GoError → RetryOutcome
deriving Repr, DecidableEq

structure RetryTrace where
  outcome : RetryOutcome
  calls : Nat
  sleeps : Nat
deriving Repr, DecidableEq

/-- The body of WithRetry's loop from iteration `attempt` on.  The Go loop
breaks out to the exhaustion return when attempt == cfg.MaxRetries; since the
loop starts at attempt = 0 and increments by one, the first iteration where
that check can fire is exactly attempt = cfg.MaxRetries, so the test is
written with ≤ here, which makes the termination measure evident without
changing any reachable behaviour. -/
def withRetryAux (cfg : RetryConfig) (fn : Nat → Option GoError)
    (ctxDone : Nat → Bool) (attempt calls sleeps : Nat) : RetryTrace :=
  match fn attempt with
  | none => ⟨RetryOutcome.success, calls + 1, sleeps⟩
  | some err =>
    if IsRetryable (some err) = false then ⟨RetryOutcome.failed err, calls + 1, sleeps⟩
    else if hle : cfg.MaxRetries ≤ attempt then
      ⟨RetryOutcome.exhausted err, calls + 1, sleeps⟩
    else if ctxDone attempt then ⟨RetryOutcome.canceled, calls + 1, sleeps⟩
    else withRetryAux cfg fn ctxDone (attempt + 1) (calls + 1) (sleeps + 1)
termination_by cfg.MaxRetries - attempt
decreasing_by omega

/-- WithRetry: run fn with at most cfg.MaxRetries retries after the first
attempt, with an interruptible exponential-backoff sleep between attempts. -/
def WithRetry (cfg : RetryConfig) (fn : Nat → Option GoError)
    (ctxDone : Nat → Bool) : RetryTrace :=
  withRetryAux cfg fn ctxDone 0 0 0

theorem withRetryAux_all_fail (cfg : RetryConfig) (fn : Nat → Option GoError)
    (ctxDone : Nat → Bool) (hctx : ∀ n, ctxDone n = false) (e : GoError)
    (hlast : fn cfg.MaxRetries = some e)
    (hfail : ∀ n, n ≤ cfg.MaxRetries →
      ∃ err, fn n = some err ∧ IsRetryable (some err) = true) :
    ∀ d attempt calls sleeps, attempt + d = cfg.MaxRetries →
      withRetryAux cfg fn ctxDone attempt calls sleeps =
        ⟨RetryOutcome.exhausted e, calls + d + 1, sleeps + d⟩ := by
  intro d
  induction d with
  | zero =>
    intro attempt calls sleeps hd
    have hatt : attempt = cfg.MaxRetries := by omega
    subst hatt
    rcases hfail cfg.MaxRetries (Nat.le_refl _) with ⟨err, he1, he2⟩
    have herr : err = e := by
      rw [hlast] at he1
      exact (Option.some.injEq _ _).mp he1.symm
    subst herr
    rw [withRetryAux, hlast]
    simp [he2]
  | succ k ih =>
    intro attempt calls sleeps hd
    rcases hfail attempt (by omega) with ⟨err, he1, he2⟩
    have hnotle : ¬ (cfg.MaxRetries ≤ attempt) := by omega
    rw [withRetryAux, he1]
    simp only [he2, hnotle, hctx attempt, Bool.true_eq_false, if_false, dif_neg,
      not_false_eq_true, Bool.false_eq_true]
    rw [ih (attempt + 1) (calls + 1) (sleeps + 1) (by omega)]
    simp only [RetryTrace.mk.injEq]
    refine ⟨trivial, by omega, by omega⟩

theorem withRetryAux_first_success (cfg : RetryConfig) (fn : Nat → Option GoError)
    (ctxDone : Nat → Bool) (hctx : ∀ n, ctxDone n = false) :
    ∀ d attempt calls sleeps, attempt + d ≤ cfg.MaxRetries →
      (∀ n, attempt ≤ n → n < attempt + d →
        ∃ err, fn n = some err ∧ IsRetryable (some err) = true) →
      fn (attempt + d) = none →
      withRetryAux cfg fn ctxDone attempt calls sleeps =
        ⟨RetryOutcome.success, calls + d + 1, sleeps + d⟩ := by
  intro d
  induction d with
  | zero =>
    intro attempt calls sleeps hle hfail hok
    simp only [Nat.add_zero] at hok
    rw [withRetryAux, hok]
    simp
  | succ k ih =>
    intro attempt calls sleeps hle hfail hok
    rcases hfail attempt (by omega) (by omega) with ⟨err, he1, he2⟩
    have hnotle : ¬ (cfg.MaxRetries ≤ attempt) := by omega
    rw [withRetryAux, he1]
    simp only [he2, hnotle, hctx attempt, Bool.true_eq_false, if_false, dif_neg,
      not_false_eq_true, Bool.false_eq_true]
    have hok2 : fn (attempt + 1 + k) = none := by
      have harith : attempt + 1 + k = attempt + (k + 1) := by omega
      rw [harith]
      exact hok
    rw [ih (attempt + 1) (calls + 1) (sleeps + 1) (by omega)
      (by
        intro n hn1 hn2
        exact hfail n (by omega) (by omega)) hok2]
    simp only [RetryTrace.mk.injEq]
    refine ⟨trivial, by omega, by omega⟩

/-- C4: with ctx never cancelled, under MaxRetries = m, an operation failing
with a retryable error on every attempt is invoked exactly m + 1 times and
WithRetry returns the last observed error wrapped as retry-exhausted (after m
completed backoff sleeps); an operation first succeeding on invocation k with
k ≤ m + 1 after retryable failures is invoked exactly k times and WithRetry
returns nil. -/
theorem withRetry_retry_arithmetic (cfg : RetryConfig) (fn : Nat → Option GoError)
    (ctxDone : Nat → Bool) (hctx : ∀ n, ctxDone n = false) :
    ((∀ n, n ≤ cfg.MaxRetries →
        ∃ err, fn n = some err ∧ IsRetryable (some err) = true) →
      ∃ e, fn cfg.MaxRetries = some e ∧
        WithRetry cfg fn ctxDone =
          ⟨RetryOutcome.exhausted e, cfg.MaxRetries + 1, cfg.MaxRetries⟩)
    ∧ (∀ k, 1 ≤ k → k ≤ cfg.MaxRetries + 1 →
        (∀ n, n + 1 < k →
          ∃ err, fn n = some err ∧ IsRetryable (some err) = true) →
        fn (k - 1) = none →
        WithRetry cfg fn ctxDone = ⟨RetryOutcome.success, k, k - 1⟩) := by
  constructor
  · intro hfail
    rcases hfail cfg.MaxRetries (by omega) with ⟨e, he, _⟩
    refine ⟨e, he, ?_⟩
    unfold WithRetry
    rw [withRetryAux_all_fail cfg fn ctxDone hctx e he hfail cfg.MaxRetries 0 0 0
      (by omega)]
    simp
  · intro k hk1 hk2 hfail hok
    unfold WithRetry
    rw [withRetryAux_first_success cfg fn ctxDone hctx (k - 1) 0 0 0 (by omega)
      (by
        intro n hn1 hn2
        exact hfail n (by omega))
      (by
        have harith : 0 + (k - 1) = k - 1 := by omega
        rw [harith]
        exact hok)]
    simp only [RetryTrace.mk.injEq]
    refine ⟨trivial, by omega, by omega⟩

/-- The deadline-exceeded error used in the retry witnesses. -/
def deadlineErr : GoError := ⟨true, none, "context deadline exceeded".toList⟩

/-- C4 witness: with MaxRetries = 2 and an operation that always fails with a
deadline error, WithRetry calls it exactly 3 times and returns the wrapped
retry-exhausted outcome; with an operation that fails twice then succeeds,
WithRetry calls it exactly 3 times and returns nil. -/
theorem withRetry_retry_arithmetic_witness :
    (WithRetry ⟨2, 1000, 30000⟩ (fun _ => some deadlineErr) (fun _ => false) =
      ⟨RetryOutcome.exhausted deadlineErr, 3, 2⟩)
    ∧ (WithRetry ⟨2, 1000, 30000⟩
        (fun n => if n < 2 then some deadlineErr else none) (fun _ => false) =
      ⟨RetryOutcome.success, 3, 2⟩) := by
  constructor
  · have h := (withRetry_retry_arithmetic ⟨2, 1000, 30000⟩
      (fun _ => some deadlineErr) (fun _ => false) (fun n => rfl)).1
      (fun n _ => ⟨deadlineErr, rfl, by decide⟩)
    rcases h with ⟨e, he, hr⟩
    have he2 : e = deadlineErr := by
      simpa using he.symm
    rw [he2] at hr
    exact hr
  · have h := (withRetry_retry_arithmetic ⟨2, 1000, 30000⟩
      (fun n => if n < 2 then some deadlineErr else none) (fun _ => false)
      (fun n => rfl)).2 3 (by omega) (by decide)
      (fun n hn => ⟨deadlineErr, by
        have hn2 : n < 2 := by omega
        simp [hn2], by decide⟩)
      (by norm_num)
    exact h

/-- C9: an operation whose first invocation returns a non-retryable error is
invoked exactly once, no backoff sleep happens, and WithRetry returns that
error unmodified, not wrapped as retry-exhausted. -/
theorem withRetry_nonretryable_once (cfg : RetryConfig) (fn : Nat → Option GoError)
    (ctxDone : Nat → Bool) (e : GoError) (h1 : fn 0 = some e)
    (h2 : IsRetryable (some e) = false) :
    WithRetry cfg fn ctxDone = ⟨RetryOutcome.failed e, 1, 0⟩ := by
  unfold WithRetry
  rw [withRetryAux, h1]
  simp [h2]

/-- C9 witness: a 400-class API error (invalid request) is returned after a
single invocation with no sleeps. -/
theorem withRetry_nonretryable_once_witness :
    WithRetry DefaultRetryConfig
      (fun _ => some ⟨false, some 400, "invalid argument".toList⟩)
      (fun _ => false) =
    ⟨RetryOutcome.failed ⟨false, some 400, "invalid argument".toList⟩, 1, 0⟩ :=
  withRetry_nonretryable_once DefaultRetryConfig _ _ _ rfl (by decide)

/-! ## The ordered streaming printer (src/cmd/git-commit-analysis/main.go)

orderedPrinter buffers out-of-order results in an index-keyed map and holds a
cursor nextToPrint; submit stores its argument and then drains: while the map
holds the next expected index, that result is printed (one printResult call),
removed from the map, and the cursor advances.  submit runs under the
printer's mutex, so a concurrent execution is equivalent to some sequential
order of the submit calls; the theorem quantifies over every such order.  The
printed field records the sequence of printResult invocations.  The map is an
association list whose store operation overwrites the key, like a Go map.
-/

structure PrinterState (A : Type) where
  results : List (Nat × A)
  nextToPrint : Nat
  printed : List (Nat × A)
deriving Repr, DecidableEq

/-- newOrderedPrinter: empty buffer, cursor at index 0, nothing printed. -/
def newOrderedPrinter (A : Type) : PrinterState A := ⟨[], 0, []⟩

/-- Go map assignment p.results[r.index] = r. -/
def mapStore (m : List (Nat × A)) (k : Nat) (v : A) : List (Nat × A) :=
  (k, v) :: m.filter (fun p => !(p.1 == k))

/-- Go map lookup result, ok := p.results[p.nextToPrint]. -/
def mapLookup (m : List (Nat × A)) (k : Nat) : Option A :=
  (m.find? (fun p => p.1 == k)).map Prod.snd

/-- Go delete(p.results, p.nextToPrint). -/
def mapDelete (m : List (Nat × A)) (k : Nat) : List (Nat × A) :=
  m.filter (fun p => !(p.1 == k))

/-- The drain loop of submit.  Each iteration removes one entry from the map,
so the loop runs at most m.length times; the fuel argument carries that bound
to make the recursion structural, and submit passes exactly m.length. -/
def drainLoop (fuel : Nat) (m : List (Nat × A)) (next : Nat)
    (printed : List (Nat × A)) : List (Nat × A) × Nat × List (Nat × A) :=
  match fuel with
  | 0 => (m, next, printed)
  | f + 1 =>
    match mapLookup m next with
    | none => (m, next, printed)
    | some v => drainLoop f (mapDelete m next) (next + 1) (printed ++ [(next, v)])

/-- submit: store the result under its index, then print every consecutive
ready result starting from nextToPrint. -/
def submit (st : PrinterState A) (r : Nat × A) : PrinterState A :=
  let m := mapStore st.results r.1 r.2
  let out := drainLoop m.length m st.nextToPrint st.printed
  ⟨out.1, out.2.1, out.2.2⟩

/-- One sequential run of the printer over a list of submissions. -/
def runPrinter (subs : List (Nat × A)) : PrinterState A :=
  subs.foldl submit (newOrderedPrinter A)

def keysOf (m : List (Nat × A)) : List Nat := m.map Prod.fst

/-- The printer invariant relative to the submissions S seen so far: printed
holds exactly the indices below the cursor in increasing order, the buffer
holds exactly the submitted indices at or above the cursor, each held once,
everything printed or buffered was submitted, and the cursor's own index has
not been submitted yet. -/
def Inv (S : List (Nat × A)) (st : PrinterState A) : Prop :=
  st.printed.map Prod.fst = List.range st.nextToPrint
  ∧ (∀ p ∈ st.printed, p ∈ S)
  ∧ (∀ p ∈ st.results, p ∈ S)
  ∧ (∀ k : Nat, k ∈ keysOf st.results ↔ (k ∈ keysOf S ∧ st.nextToPrint ≤ k))
  ∧ (keysOf st.results).Nodup
  ∧ (∀ k : Nat, k < st.nextToPrint → k ∈ keysOf S)
  ∧ st.nextToPrint ∉ keysOf S

theorem mapLookup_eq_none_iff (m : List (Nat × A)) (k : Nat) :
    mapLookup m k = none ↔ k ∉ keysOf m := by
  unfold mapLookup keysOf
  rw [Option.map_eq_none', List.find?_eq_none]
  constructor
  · intro h hk
    rcases List.mem_map.mp hk with ⟨p, hp, hpk⟩
    exact (h p hp) (by simp [hpk])
  · intro h p hp hpk
    apply h
    apply List.mem_map.mpr
    exact ⟨p, hp, by simpa using hpk⟩

theorem mapLookup_some_mem {m : List (Nat × A)} {k : Nat} {v : A}
    (h : mapLookup m k = some v) : (k, v) ∈ m := by
  unfold mapLookup at h
  rw [Option.map_eq_some'] at h
  rcases h with ⟨p, hp, hpv⟩
  have hmem := List.mem_of_find?_eq_some hp
  have hkey := List.find?_some hp
  simp only [beq_iff_eq] at hkey
  have hpkv : p = (k, v) := by
    rcases p with ⟨pk, pv⟩
    simp only at hkey hpv
    rw [hkey, hpv]
  rw [← hpkv]
  exact hmem

theorem keysOf_mapDelete (m : List (Nat × A)) (k : Nat) :
    keysOf (mapDelete m k) = (keysOf m).filter (fun x => !(x == k)) := by
  induction m with
  | nil => rfl
  | cons p rest ih =>
    by_cases hp : (p.1 == k) = true
    · simp [mapDelete, keysOf, List.filter_cons, hp] at ih ⊢
      exact ih
    · simp only [Bool.not_eq_true] at hp
      simp [mapDelete, keysOf, List.filter_cons, hp] at ih ⊢
      exact ih

theorem mapDelete_length_lt {m : List (Nat × A)} {k : Nat} {v : A}
    (h : (k, v) ∈ m) : (mapDelete m k).length < m.length := by
  unfold mapDelete
  rw [List.length_filter_lt_length_iff_exists]
  exact ⟨(k, v), h, by simp⟩

theorem drainLoop_spec (S : List (Nat × A)) :
    ∀ (fuel : Nat) (m : List (Nat × A)) (next : Nat) (printed : List (Nat × A)),
      m.length ≤ fuel →
      (keysOf m).Nodup →
      (∀ k : Nat, k ∈ keysOf m ↔ (k ∈ keysOf S ∧ next ≤ k)) →
      (∀ k : Nat, k < next → k ∈ keysOf S) →
      printed.map Prod.fst = List.range next →
      (∀ p ∈ printed, p ∈ S) →
      (∀ p ∈ m, p ∈ S) →
      ((drainLoop fuel m next printed).2.2.map Prod.fst
          = List.range (drainLoop fuel m next printed).2.1)
      ∧ (∀ p ∈ (drainLoop fuel m next printed).2.2, p ∈ S)
      ∧ (∀ p ∈ (drainLoop fuel m next printed).1, p ∈ S)
      ∧ (∀ k : Nat, k ∈ keysOf (drainLoop fuel m next printed).1
          ↔ (k ∈ keysOf S ∧ (drainLoop fuel m next printed).2.1 ≤ k))
      ∧ (keysOf (drainLoop fuel m next printed).1).Nodup
      ∧ (∀ k : Nat, k < (drainLoop fuel m next printed).2.1 → k ∈ keysOf S)
      ∧ (drainLoop fuel m next printed).2.1 ∉ keysOf S := by
  intro fuel
  induction fuel with
  | zero =>
    intro m next printed hfuel hnd hchar hlow hpr hprS hmS
    have hm : m = [] := List.length_eq_zero.mp (by omega)
    subst hm
    simp only [drainLoop]
    refine ⟨hpr, hprS, by simp, hchar, hnd, hlow, ?_⟩
    intro hnext
    have := (hchar next).mpr ⟨hnext, Nat.le_refl _⟩
    simp [keysOf] at this
  | succ f ih =>
    intro m next printed hfuel hnd hchar hlow hpr hprS hmS
    rw [drainLoop]
    cases hlk : mapLookup m next with
    | none =>
      simp only
      have hnotin : next ∉ keysOf m := (mapLookup_eq_none_iff m next).mp hlk
      refine ⟨hpr, hprS, hmS, hchar, hnd, hlow, ?_⟩
      intro hnext
      exact hnotin ((hchar next).mpr ⟨hnext, Nat.le_refl _⟩)
    | some v =>
      simp only
      have hmem : (next, v) ∈ m := mapLookup_some_mem hlk
      have hkey : next ∈ keysOf m := by
        simp only [keysOf, List.mem_map]
        exact ⟨(next, v), hmem, rfl⟩
      have hnextS : next ∈ keysOf S := ((hchar next).mp hkey).1
      have hlen : (mapDelete m next).length < m.length := mapDelete_length_lt hmem
      apply ih (mapDelete m next) (next + 1) (printed ++ [(next, v)])
      · omega
      · rw [keysOf_mapDelete]
        exact List.Nodup.filter _ hnd
      · intro k
        rw [keysOf_mapDelete]
        constructor
        · intro hk
          have hk1 : k ∈ keysOf m := (List.mem_filter.mp hk).1
          have hk2 := (List.mem_filter.mp hk).2
          have hkne : k ≠ next := by simpa using hk2
          rcases (hchar k).mp hk1 with ⟨hkS, hkn⟩
          exact ⟨hkS, by omega⟩
        · rintro ⟨hkS, hkn⟩
          apply List.mem_filter.mpr
          refine ⟨(hchar k).mpr ⟨hkS, by omega⟩, ?_⟩
          simp only [Bool.not_eq_true', beq_eq_false_iff_ne, ne_eq]
          omega
      · intro k hk
        by_cases hkn : k < next
        · exact hlow k hkn
        · have : k = next := by omega
          rw [this]
          exact hnextS
      · rw [List.map_append, hpr]
        simp [List.range_succ]
      · intro p hp
        rcases List.mem_append.mp hp with h | h
        · exact hprS p h
        · simp only [List.mem_singleton] at h
          rw [h]
          exact hmS _ hmem
      · intro p hp
        exact hmS p (List.mem_of_mem_filter hp)

theorem submit_inv (S : List (Nat × A)) (st : PrinterState A) (r : Nat × A)
    (hInv : Inv S st) (hnew : r.1 ∉ keysOf S) : Inv (S ++ [r]) (submit st r) := by
  rcases hInv with ⟨h1, h2, h3, h4, h5, h6, h7⟩
  have hnotin : r.1 ∉ keysOf st.results := by
    intro h
    exact hnew ((h4 r.1).mp h).1
  have hstore : mapStore st.results r.1 r.2 = (r.1, r.2) :: st.results := by
    unfold mapStore
    congr 1
    apply List.filter_eq_self.mpr
    intro p hp
    simp only [Bool.not_eq_true', beq_eq_false_iff_ne, ne_eq]
    intro hpk
    apply hnotin
    simp only [keysOf, List.mem_map]
    exact ⟨p, hp, hpk⟩
  have hge : st.nextToPrint ≤ r.1 := by
    by_contra hlt
    exact hnew (h6 r.1 (by omega))
  have hkeys : keysOf ((r.1, r.2) :: st.results) = r.1 :: keysOf st.results := rfl
  have happ : ∀ k : Nat, k ∈ keysOf (S ++ [r]) ↔ (k ∈ keysOf S ∨ k = r.1) := by
    intro k
    unfold keysOf
    rw [List.map_append, List.mem_append]
    constructor
    · rintro (h | h)
      · exact Or.inl h
      · refine Or.inr ?_
        simpa using h
    · rintro (h | h)
      · exact Or.inl h
      · refine Or.inr ?_
        simpa using h
  have hspec := drainLoop_spec (S ++ [r])
    (((r.1, r.2) :: st.results).length) ((r.1, r.2) :: st.results)
    st.nextToPrint st.printed (Nat.le_refl _)
    (by
      rw [hkeys]
      exact List.nodup_cons.mpr ⟨hnotin, h5⟩)
    (by
      intro k
      rw [hkeys, happ k]
      constructor
      · intro hk
        rcases List.mem_cons.mp hk with hk | hk
        · exact ⟨Or.inr hk, by omega⟩
        · rcases (h4 k).mp hk with ⟨hkS, hkn⟩
          exact ⟨Or.inl hkS, hkn⟩
      · rintro ⟨hkS | hkr, hkn⟩
        · exact List.mem_cons.mpr (Or.inr ((h4 k).mpr ⟨hkS, hkn⟩))
        · exact List.mem_cons.mpr (Or.inl hkr))
    (by
      intro k hk
      rw [happ k]
      exact Or.inl (h6 k hk))
    h1
    (by
      intro p hp
      exact List.mem_append.mpr (Or.inl (h2 p hp)))
    (by
      intro p hp
      rcases List.mem_cons.mp hp with hp | hp
      · subst hp
        simp
      · exact List.mem_append.mpr (Or.inl (h3 p hp)))
  unfold submit Inv
  rw [hstore] at *
  exact hspec

theorem foldl_submit_inv (subs : List (Nat × A)) :
    ∀ (S : List (Nat × A)) (st : PrinterState A), Inv S st →
      (keysOf S ++ keysOf subs).Nodup →
      Inv (S ++ subs) (subs.foldl submit st) := by
  induction subs with
  | nil =>
    intro S st hInv _
    simpa using hInv
  | cons r rest ih =>
    intro S st hInv hnd
    have hsplit : keysOf S ++ keysOf (r :: rest)
        = keysOf S ++ r.1 :: keysOf rest := rfl
    rw [hsplit] at hnd
    have hnew : r.1 ∉ keysOf S := by
      intro hmem
      have hr : r.1 ∈ keysOf S ++ r.1 :: keysOf rest := by
        simp
      rcases List.nodup_append.mp hnd with ⟨_, _, hdisj⟩
      exact hdisj hmem (by simp)
    have hInv2 := submit_inv S st r hInv hnew
    have hnd2 : (keysOf (S ++ [r]) ++ keysOf rest).Nodup := by
      have hkeq : keysOf (S ++ [r]) ++ keysOf rest
          = keysOf S ++ r.1 :: keysOf rest := by
        simp [keysOf]
      rw [hkeq]
      exact hnd
    have := ih (S ++ [r]) (submit st r) hInv2 hnd2
    simpa using this

/-- C1: for every total N and every order of submissions delivering each index
0..N-1 exactly once to the ordering buffer, the printResult calls happen in
strictly increasing index order 0, 1, ..., N-1, each submitted outcome is
printed exactly once (the printed indices are exactly List.range N and every
printed pair is one of the submissions), the buffer ends empty and the cursor
ends at N — independent of the submission order. -/
theorem orderedPrinter_emits_in_order (A : Type) (N : Nat)
    (subs : List (Nat × A)) (hperm : (subs.map Prod.fst).Perm (List.range N)) :
    (runPrinter subs).printed.map Prod.fst = List.range N
    ∧ (∀ p ∈ (runPrinter subs).printed, p ∈ subs)
    ∧ (runPrinter subs).results = []
    ∧ (runPrinter subs).nextToPrint = N := by
  have hInit : Inv ([] : List (Nat × A)) (newOrderedPrinter A) := by
    unfold Inv newOrderedPrinter
    refine ⟨rfl, by simp, by simp, ?_, by simp [keysOf], by simp, by simp [keysOf]⟩
    intro k
    simp [keysOf]
  have hnd : (keysOf ([] : List (Nat × A)) ++ keysOf subs).Nodup := by
    have hr : (List.range N).Nodup := List.nodup_range N
    have := (List.Perm.nodup_iff hperm).mpr hr
    simpa [keysOf] using this
  have hInv0 := foldl_submit_inv subs [] (newOrderedPrinter A) hInit hnd
  simp only [List.nil_append] at hInv0
  have hInv : Inv subs (runPrinter subs) := by
    unfold runPrinter
    exact hInv0
  rcases hInv with ⟨h1, h2, h3, h4, h5, h6, h7⟩
  have hmemiff : ∀ k : Nat, k ∈ keysOf subs ↔ k < N := by
    intro k
    rw [keysOf, List.Perm.mem_iff hperm, List.mem_range]
  have hnext : (runPrinter subs).nextToPrint = N := by
    have hA : ¬ ((runPrinter subs).nextToPrint < N) := by
      intro hlt
      exact h7 ((hmemiff _).mpr hlt)
    have hB : ¬ (N < (runPrinter subs).nextToPrint) := by
      intro hlt
      have := h6 N hlt
      have := (hmemiff N).mp this
      omega
    omega
  have hres : (runPrinter subs).results = [] := by
    have hk : keysOf (runPrinter subs).results = [] := by
      apply List.eq_nil_iff_forall_not_mem.mpr
      intro k hk
      rcases (h4 k).mp hk with ⟨hkS, hge⟩
      have := (hmemiff k).mp hkS
      omega
    have := congrArg List.length hk
    simp only [keysOf, List.length_map, List.length_nil] at this
    exact List.length_eq_zero.mp this
  refine ⟨?_, h2, hres, hnext⟩
  rw [h1, hnext]

/-- C1 witness: three outcomes submitted in the order 2, 0, 1 are printed as
0, 1, 2, each exactly once, with an empty buffer at the end. -/
theorem orderedPrinter_emits_in_order_witness :
    (runPrinter [(2, "c".toList), (0, "a".toList), (1, "b".toList)]).printed.map
        Prod.fst = List.range 3
    ∧ (∀ p ∈ (runPrinter [(2, "c".toList), (0, "a".toList),
        (1, "b".toList)]).printed,
        p ∈ [(2, "c".toList), (0, "a".toList), (1, "b".toList)])
    ∧ (runPrinter [(2, "c".toList), (0, "a".toList), (1, "b".toList)]).results = []
    ∧ (runPrinter [(2, "c".toList), (0, "a".toList),
        (1, "b".toList)]).nextToPrint = 3 :=
  orderedPrinter_emits_in_order (List Char) 3
    [(2, "c".toList), (0, "a".toList), (1, "b".toList)] (by decide)

/-! ## Ignored-file policy and the standard diff
(src/pkg/analyzer/engine.go, gitdiff section: ShouldIgnoreFile, GetStandardDiff)
-/

def lockFiles : List (List Char) :=
  ["go.sum".toList, "package-lock.json".toList, "yarn.lock".toList,
   "Gemfile.lock".toList, "poetry.lock".toList, "pnpm-lock.yaml".toList,
   "Cargo.lock".toList, "composer.lock".toList, "Pipfile.lock".toList,
   "shrinkwrap.yaml".toList]

def testPatterns : List (List Char) :=
  ["_test.go".toList, ".test.js".toList, ".test.ts".toList, ".spec.js".toList,
   ".spec.ts".toList, "_test.py".toList, "_spec.rb".toList]

def ignoreDirs : List (List Char) :=
  ["vendor/".toList, "node_modules/".toList, "dist/".toList, "build/".toList,
   "out/".toList, ".idea/".toList, ".vscode/".toList, ".git/".toList,
   "__pycache__/".toList, ".pytest_cache/".toList, ".tox/".toList]

/-- ShouldIgnoreFile: normalise path separators, then check lock/checksum
files, test-file suffixes, the python test_ filename form, ignored
directories, and CI configuration files, in the source's order.  Go guards
the filename extraction with len(parts) > 0; splitOnChar always returns a
non-empty list, so getLastD never uses its default. -/
def ShouldIgnoreFile (path0 : List Char) : Bool :=
  let path := path0.map (fun c => if c == '\\' then '/' else c)
  if lockFiles.any (fun lf => listEnds path lf) then true
  else if testPatterns.any (fun tp => listEnds path tp) then true
  else if (let filename := (splitOnChar '/' path).getLastD []
           listStarts filename "test_".toList && listEnds filename ".py".toList)
    then true
  else if ignoreDirs.any (fun dir => listHasSub path dir) then true
  else if listStarts path ".github/".toList || listStarts path ".gitlab/".toList
      || listStarts path ".circleci/".toList || path == ".gitlab-ci.yml".toList
      || path == ".travis.yml".toList then true
  else false

/-- One per-file patch of a go-git Patch, as GetStandardDiff reads it: the
binary flag, the from/to file paths (nil pointers are none), and the chunks,
each a pair of the chunk operation (0 context, 1 add, 2 delete) and its
content text. -/
structure FilePatch where
  isBinary : Bool
  fromPath : Option (List Char)
  toPath : Option (List Char)
  chunks : List (Nat × List Char)
deriving Repr, DecidableEq

/-- Path selection: Go starts from "", takes from.Path() when from is
non-nil, then overwrites with to.Path() when to is non-nil. -/
def patchPath (fp : FilePatch) : List Char :=
  match fp.toPath with
  | some p => p
  | none =>
    match fp.fromPath with
    | some p => p
    | none => []

/-- The per-line operation tag of a chunk: " " for context (type 0 and the
default), "+" for add (1), "-" for delete (2). -/
def chunkOp (t : Nat) : Char :=
  if t == 1 then '+' else if t == 2 then '-' else ' '

/-- Rendering of one chunk: skip empty content, split the content into lines,
and emit op ++ line ++ newline for every non-empty line. -/
def renderChunk (chunk : Nat × List Char) : List Char :=
  if chunk.2.isEmpty then []
  else
    List.flatten
      (((splitOnChar '\n' chunk.2).filter (fun line => !line.isEmpty)).map
        (fun line => chunkOp chunk.1 :: (line ++ ['\n'])))

/-- Rendering of one surviving file patch: the "--- path" header line and
every chunk. -/
def renderFilePatch (fp : FilePatch) : List Char :=
  "--- ".toList ++ patchPath fp ++ ['\n'] ++ List.flatten (fp.chunks.map renderChunk)

/-- The body of GetStandardDiff's loop over patch.FilePatches(): drop binary
patches, drop ignored paths, and for a non-empty surviving path append it to
the modified-file list and its rendering to the builder. -/
def standardDiffFold (acc : List Char × List (List Char)) (fp : FilePatch) :
    List Char × List (List Char) :=
  if fp.isBinary then acc
  else
    let path := patchPath fp
    if ShouldIgnoreFile path then acc
    else if path.isEmpty then acc
    else (acc.1 ++ renderFilePatch fp, acc.2 ++ [path])

/-- GetStandardDiff after object.DiffTree and changes.Patch() have produced
the file patches: render the surviving patches and truncate the text at
MaxDiffSize; the second component is the modified-file list. -/
def GetStandardDiff (patches : List FilePatch) : List Char × List (List Char) :=
  let out := patches.foldl standardDiffFold ([], [])
  (TruncateDiff out.1 (MaxDiffSize : Int), out.2)

/-- Whether a file patch survives GetStandardDiff's filter. -/
def keepsPatch (fp : FilePatch) : Bool :=
  !fp.isBinary && !(ShouldIgnoreFile (patchPath fp)) && !(patchPath fp).isEmpty

theorem standardDiffFold_snd (acc : List Char × List (List Char)) (fp : FilePatch) :
    (standardDiffFold acc fp).2
      = if keepsPatch fp then acc.2 ++ [patchPath fp] else acc.2 := by
  unfold standardDiffFold keepsPatch
  by_cases hb : fp.isBinary = true
  · simp [hb]
  · simp only [Bool.not_eq_true] at hb
    by_cases hi : ShouldIgnoreFile (patchPath fp) = true
    · simp [hb, hi]
    · simp only [Bool.not_eq_true] at hi
      by_cases he : (patchPath fp).isEmpty = true
      · simp [hb, hi, he]
      · simp only [Bool.not_eq_true] at he
        simp [hb, hi, he]

theorem standardDiffFold_files (patches : List FilePatch) :
    ∀ acc : List Char × List (List Char),
      (patches.foldl standardDiffFold acc).2
        = acc.2 ++ (patches.filter keepsPatch).map patchPath := by
  induction patches with
  | nil =>
    intro acc
    simp
  | cons fp rest ih =>
    intro acc
    rw [List.foldl_cons, ih (standardDiffFold acc fp), standardDiffFold_snd]
    cases hk : keepsPatch fp with
    | true => simp [List.filter_cons, hk]
    | false => simp [List.filter_cons, hk]

theorem getStandardDiff_files (patches : List FilePatch) :
    (GetStandardDiff patches).2 = (patches.filter keepsPatch).map patchPath := by
  show (patches.foldl standardDiffFold ([], [])).2
      = (patches.filter keepsPatch).map patchPath
  rw [standardDiffFold_files patches ([], [])]
  simp

/-! ## Root commits: the standard diff with an absent parent (C7)

GetStandardDiff (the commit level wrapper) takes the commit's tree and the
parent's tree, which is nil for a root commit, and hands both to
object.DiffTree before rendering; go-git's DiffTree treats a nil tree as the
empty tree.  The collaborator tree-diff is an oracle parameter; its one
contractual fact used here is that diffing the empty tree against a tree
lists every file of that tree as one added file patch carrying its whole
content (chunk type 1 = Add).
-/

structure TreeFile where
  path : List Char
  content : List Char
  isBinary : Bool
deriving Repr, DecidableEq

/-- The added-file patch the tree diff emits for a file absent from the old
tree: no from file, the new path, one Add chunk with the full content. -/
def addPatch (f : TreeFile) : FilePatch :=
  ⟨f.isBinary, none, some f.path, [(1, f.content)]⟩

/-- The commit-level GetStandardDiff: the parent is optional; a nil parent
tree reaches object.DiffTree, which walks it as the empty tree. -/
def GetStandardDiffFromTrees
    (treeDiff : List TreeFile → List TreeFile → List FilePatch)
    (cTree : List TreeFile) (parent : Option (List TreeFile)) :
    List Char × List (List Char) :=
  let pTree : List TreeFile :=
    match parent with
    | none => []
    | some t => t
  GetStandardDiff (treeDiff pTree cTree)

theorem filter_map_addPatch (cTree : List TreeFile) :
    ((cTree.map addPatch).filter keepsPatch).map patchPath
      = (cTree.filter (fun f =>
          !f.isBinary && !(ShouldIgnoreFile f.path) && !f.path.isEmpty)).map
            TreeFile.path := by
  induction cTree with
  | nil => rfl
  | cons f rest ih =>
    have hpp : patchPath (addPatch f) = f.path := rfl
    have hkp : keepsPatch (addPatch f)
        = (!f.isBinary && !(ShouldIgnoreFile f.path) && !f.path.isEmpty) := rfl
    simp only [List.map_cons, List.filter_cons, hkp]
    cases hc : (!f.isBinary && !(ShouldIgnoreFile f.path) && !f.path.isEmpty) with
    | true => simp [hc, hpp, ih]
    | false => simp [hc, ih]

/-- C7: for a commit with no parent, the standard diff treats the absent
parent as the empty tree: it equals the rendering of the all-additions diff
of the commit's entire tree (no error path exists for the missing parent),
the touched-file list is exactly the commit's non-binary, non-ignored,
non-empty paths, and every such file of the commit appears in it. -/
theorem getStandardDiff_root_commit
    (treeDiff : List TreeFile → List TreeFile → List FilePatch)
    (cTree : List TreeFile)
    (hdiff : treeDiff [] cTree = cTree.map addPatch) :
    GetStandardDiffFromTrees treeDiff cTree none
      = GetStandardDiff (cTree.map addPatch)
    ∧ (GetStandardDiffFromTrees treeDiff cTree none).2
      = (cTree.filter (fun f =>
          !f.isBinary && !(ShouldIgnoreFile f.path) && !f.path.isEmpty)).map
            TreeFile.path
    ∧ (∀ f ∈ cTree, f.isBinary = false → ShouldIgnoreFile f.path = false →
        f.path ≠ [] → f.path ∈ (GetStandardDiffFromTrees treeDiff cTree none).2) := by
  have hmain : GetStandardDiffFromTrees treeDiff cTree none
      = GetStandardDiff (cTree.map addPatch) := by
    show GetStandardDiff (treeDiff [] cTree) = GetStandardDiff (cTree.map addPatch)
    rw [hdiff]
  have hfiles : (GetStandardDiffFromTrees treeDiff cTree none).2
      = (cTree.filter (fun f =>
          !f.isBinary && !(ShouldIgnoreFile f.path) && !f.path.isEmpty)).map
            TreeFile.path := by
    rw [hmain, getStandardDiff_files, filter_map_addPatch]
  refine ⟨hmain, hfiles, ?_⟩
  intro f hf hb hi hp
  rw [hfiles]
  apply List.mem_map.mpr
  refine ⟨f, ?_, rfl⟩
  apply List.mem_filter.mpr
  refine ⟨hf, ?_⟩
  simp [hb, hi, hp]

/-- C7 witness: a root commit whose tree holds one source file and one lock
file produces the all-additions standard diff with exactly the source file
in the touched list. -/
theorem getStandardDiff_root_commit_witness :
    GetStandardDiffFromTrees
      (fun p c => if p.isEmpty then c.map addPatch else [])
      [⟨"main.go".toList, "package main".toList, false⟩,
       ⟨"go.sum".toList, "h1:abc".toList, false⟩] none
      = GetStandardDiff
        ([⟨"main.go".toList, "package main".toList, false⟩,
          ⟨"go.sum".toList, "h1:abc".toList, false⟩].map addPatch)
    ∧ (GetStandardDiffFromTrees
        (fun p c => if p.isEmpty then c.map addPatch else [])
        [⟨"main.go".toList, "package main".toList, false⟩,
         ⟨"go.sum".toList, "h1:abc".toList, false⟩] none).2
      = ([⟨"main.go".toList, "package main".toList, false⟩,
          ⟨"go.sum".toList, "h1:abc".toList, false⟩].filter (fun f =>
          !f.isBinary && !(ShouldIgnoreFile f.path) && !f.path.isEmpty)).map
            TreeFile.path
    ∧ (∀ f ∈ [⟨"main.go".toList, "package main".toList, false⟩,
        (⟨"go.sum".toList, "h1:abc".toList, false⟩ : TreeFile)],
        f.isBinary = false → ShouldIgnoreFile f.path = false → f.path ≠ [] →
        f.path ∈ (GetStandardDiffFromTrees
          (fun p c => if p.isEmpty then c.map addPatch else [])
          [⟨"main.go".toList, "package main".toList, false⟩,
           ⟨"go.sum".toList, "h1:abc".toList, false⟩] none).2) :=
  getStandardDiff_root_commit
    (fun p c => if p.isEmpty then c.map addPatch else [])
    [⟨"main.go".toList, "package main".toList, false⟩,
     ⟨"go.sum".toList, "h1:abc".toList, false⟩]
    rfl

/-! ## Verdict extraction from noisy model output

The brace-matching strategy is embedded from findJSONBlock in
src/pkg/analyzer/engine.go.  Whether a candidate substring decodes as a
generic JSON object (Go: json.Unmarshal into map[string]interface) is an
oracle parameter, so that the extraction logic is verified for every decoder
behaviour.  Braces are written via their character codes, 123 and 125.
-/

def lbrace : Char := Char.ofNat 123

def rbrace : Char := Char.ofNat 125

/-- The discriminator field name the parser requires in a candidate block. -/
def jsonDiscriminator : List Char := "\"probability\"".toList

/-- The backward scan of findJSONBlock: Go iterates
start = LastIndex(text[:searchLen], brace), first with searchLen = end and
then with searchLen = start, taking candidate = text[start:end+1]; a
candidate missing the discriminator or failing to decode moves the scan one
opening brace earlier.  Each iteration strictly decreases searchLen, so the
fuel argument — one more than the initial searchLen — is never exhausted; it
only makes the recursion structural. -/
def findStartScan (decodes : List Char → Bool) (text : List Char) (endIdx : Nat) :
    Nat → Nat → List Char
  | 0, _ => []
  | fuel + 1, searchLen =>
    match lastIndexOfChar (text.take searchLen) lbrace with
    | none => []
    | some start =>
      let candidate := (text.take (endIdx + 1)).drop start
      if !(listHasSub candidate jsonDiscriminator) then
        findStartScan decodes text endIdx fuel start
      else if decodes candidate then candidate
      else findStartScan decodes text endIdx fuel start

/-- findJSONBlock, strategy 1 (brace matching): locate the last closing
brace, then scan candidate opening braces backwards from it; empty result
when no candidate both holds the discriminator and decodes. -/
def findJSONBlockBraces (decodes : List Char → Bool) (text : List Char) : List Char :=
  match lastIndexOfChar text rbrace with
  | none => []
  | some endIdx => findStartScan decodes text endIdx (endIdx + 1) endIdx

/-- Modelled from the spec: the regex fallback of FindJSONBlock is present in
the repository only through its tests (TestFindJSONBlockRegexFallback in the
pkg/analyzer test file) and the remediation plan; the implementation file
carrying jsonFallbackRegex is not in the snapshot.  Per the spec, the
fallback scans the text for all single-level-brace substrings — each starting
at an opening brace and running to the first following closing brace with no
brace in between, as the regex matches them, left to right and without
overlap.  The accumulator holds the interior of the block currently open, if
any; a second opening brace re-anchors the match, as the regex engine would
after failing at the earlier position. -/
def singleLevelBlocks : List Char → Option (List Char) → List (List Char)
  | [], _ => []
  | c :: rest, none =>
    if c == lbrace then singleLevelBlocks rest (some [])
    else singleLevelBlocks rest none
  | c :: rest, some acc =>
    if c == rbrace then
      (lbrace :: (acc ++ [rbrace])) :: singleLevelBlocks rest none
    else if c == lbrace then singleLevelBlocks rest (some [])
    else singleLevelBlocks rest (some (acc ++ [c]))

/-- Modelled from the spec: the fallback's candidates — the single-level
brace substrings that contain the discriminator field and decode. -/
def regexFallbackCandidates (decodes : List Char → Bool) (text : List Char) :
    List (List Char) :=
  (singleLevelBlocks text none).filter
    (fun c => listHasSub c jsonDiscriminator && decodes c)

/-- Modelled from the spec: the fallback accepts the last candidate that
contains the discriminator and decodes, or yields nothing. -/
def regexFallback (decodes : List Char → Bool) (text : List Char) : List Char :=
  match (regexFallbackCandidates decodes text).getLast? with
  | some c => c
  | none => []

/-- Modelled from the spec: FindJSONBlock runs the brace-matching strategy
and, when that yields nothing, falls back to the regex scan. -/
def FindJSONBlock (decodes : List Char → Bool) (text : List Char) : List Char :=
  let r := findJSONBlockBraces decodes text
  if r.isEmpty then regexFallback decodes text else r

theorem singleLevelBlocks_shape :
    ∀ (l : List Char) (st : Option (List Char)) (b : List Char),
      b ∈ singleLevelBlocks l st → ∃ inner, b = lbrace :: (inner ++ [rbrace]) := by
  intro l
  induction l with
  | nil =>
    intro st b hb
    simp [singleLevelBlocks] at hb
  | cons c rest ih =>
    intro st b hb
    cases st with
    | none =>
      rw [singleLevelBlocks] at hb
      by_cases hc : (c == lbrace) = true
      · rw [if_pos hc] at hb
        exact ih _ b hb
      · rw [if_neg hc] at hb
        exact ih _ b hb
    | some acc =>
      rw [singleLevelBlocks] at hb
      by_cases hc : (c == rbrace) = true
      · rw [if_pos hc] at hb
        rcases List.mem_cons.mp hb with hb | hb
        · exact ⟨acc, hb⟩
        · exact ih _ b hb
      · rw [if_neg hc] at hb
        by_cases hc2 : (c == lbrace) = true
        · rw [if_pos hc2] at hb
          exact ih _ b hb
        · rw [if_neg hc2] at hb
          exact ih _ b hb

/-- C5: on any text where the brace-matching strategy yields no candidate,
whenever some single-level-brace substring contains the discriminator field
and decodes, FindJSONBlock returns the last such substring — in particular a
non-empty string, not the empty string. -/
theorem findJSONBlock_fallback (decodes : List Char → Bool) (text : List Char)
    (h1 : findJSONBlockBraces decodes text = [])
    (h2 : regexFallbackCandidates decodes text ≠ []) :
    (regexFallbackCandidates decodes text).getLast?
      = some (FindJSONBlock decodes text)
    ∧ FindJSONBlock decodes text ≠ [] := by
  have hfb : FindJSONBlock decodes text = regexFallback decodes text := by
    unfold FindJSONBlock
    rw [h1]
    rfl
  rw [hfb]
  unfold regexFallback
  cases hlast : (regexFallbackCandidates decodes text).getLast? with
  | none =>
    exact absurd (List.getLast?_eq_none_iff.mp hlast) h2
  | some c =>
    refine ⟨rfl, ?_⟩
    have hx : c ∈ (regexFallbackCandidates decodes text).getLast? := by
      rw [hlast]
      rfl
    have hmem : c ∈ regexFallbackCandidates decodes text := by
      rcases List.mem_getLast?_eq_getLast hx with ⟨hne, hceq⟩
      rw [hceq]
      exact List.getLast_mem hne
    have hblk : c ∈ singleLevelBlocks text none :=
      (List.mem_filter.mp hmem).1
    rcases singleLevelBlocks_shape text none c hblk with ⟨inner, hshape⟩
    rw [hshape]
    simp

/-- The decoder oracle used in the C5 witness: exactly the flat verdict
object decodes. -/
def demoDecodes (s : List Char) : Bool :=
  s == "\x7b\"probability\": \"HIGH\"\x7d".toList

/-- The C5 witness text: a verdict object followed by trailing commentary
holding a stray closing brace, which defeats the brace-matching strategy. -/
def demoText : List Char :=
  "verdict: \x7b\"probability\": \"HIGH\"\x7d end of notes \x7d".toList

/-- C5 witness: on the demo text strategy 1 yields nothing, and FindJSONBlock
returns the verdict object through the fallback. -/
theorem findJSONBlock_fallback_witness :
    findJSONBlockBraces demoDecodes demoText = []
    ∧ (regexFallbackCandidates demoDecodes demoText).getLast?
        = some (FindJSONBlock demoDecodes demoText)
    ∧ FindJSONBlock demoDecodes demoText ≠ [] := by
  have h1 : findJSONBlockBraces demoDecodes demoText = [] := by decide
  have h2 : regexFallbackCandidates demoDecodes demoText ≠ [] := by decide
  have h := findJSONBlock_fallback demoDecodes demoText h1 h2
  exact ⟨h1, h.1, h.2⟩

/-! ## AnalyzeCommit (src/pkg/analyzer/engine.go)

The collaborators AnalyzeCommit drives are oracle fields of AnalyzeEnv, each
giving the outcome the corresponding Go call would produce for this commit:
the parent lookup (only reached when the commit has a parent hash), the tree
diff feeding GetStandardDiff, GetFullDiff, the model round-trip (error, or
none for a response without usable text parts, or the first text part), and
json.Unmarshal of the extracted block into AnalysisResult — its probability
field as the raw decoded string when present (then normalised by
Probability.UnmarshalJSON; an absent field leaves the zero value) and the
reasoning string.  The Skipped field carries the json tag "-", so decoding
never sets it: every parsed result has Skipped = false.  The call log
records, in order, which collaborator calls were reached; a prompt build is
pure string work and is not an external call. -/

structure AnalyzeEnv where
  parentErr : Option (List Char)
  stdDiffPatches : Except (List Char) (List FilePatch)
  fullDiffRes : Except (List Char) (List Char)
  genText : Except (List Char) (Option (List Char))
  objDecodes : List Char → Bool
  decodeRes : List Char → Except (List Char) (Option (List Char) × List Char)

inductive CallEvent where
  | stdDiffCall : CallEvent
  | fullDiffCall : CallEvent
  | modelCall : CallEvent
deriving Repr, DecidableEq

/-- AnalyzeCommit: resolve the parent (for the first commit there is none and
nothing is looked up), compute the standard diff, return Skipped immediately
when the filtered modified-file list is empty, otherwise compute the scoped
full diff, build the prompt, call the model, and parse its response through
FindJSONBlock and json.Unmarshal. -/
def AnalyzeCommit (env : AnalyzeEnv) (hasParent : Bool) :
    Except (List Char) AnalysisResult × List CallEvent :=
  match hasParent, env.parentErr with
  | true, some e => (Except.error e, [])
  | _, _ =>
    match env.stdDiffPatches with
    | Except.error e => (Except.error e, [CallEvent.stdDiffCall])
    | Except.ok patches =>
      if (GetStandardDiff patches).2.isEmpty then
        (Except.ok skippedResult, [CallEvent.stdDiffCall])
      else
        match env.fullDiffRes with
        | Except.error e =>
          (Except.error e, [CallEvent.stdDiffCall, CallEvent.fullDiffCall])
        | Except.ok _fullDiff =>
          match env.genText with
          | Except.error e =>
            (Except.error e,
             [CallEvent.stdDiffCall, CallEvent.fullDiffCall, CallEvent.modelCall])
          | Except.ok none =>
            (Except.error "empty response from gemini".toList,
             [CallEvent.stdDiffCall, CallEvent.fullDiffCall, CallEvent.modelCall])
          | Except.ok (some txt) =>
            let clean := FindJSONBlock env.objDecodes txt
            if clean.isEmpty then
              (Except.error "no JSON found in response".toList,
               [CallEvent.stdDiffCall, CallEvent.fullDiffCall, CallEvent.modelCall])
            else
              match env.decodeRes clean with
              | Except.error e =>
                (Except.error e,
                 [CallEvent.stdDiffCall, CallEvent.fullDiffCall, CallEvent.modelCall])
              | Except.ok decoded =>
                (Except.ok
                  ⟨(match decoded.1 with
                    | some s => Probability.UnmarshalJSON s
                    | none => []),
                   decoded.2, false⟩,
                 [CallEvent.stdDiffCall, CallEvent.fullDiffCall, CallEvent.modelCall])

theorem analyzeCommit_past_parent (env : AnalyzeEnv) (hasParent : Bool)
    (hpe : env.parentErr = none) (patches : List FilePatch)
    (hsd : env.stdDiffPatches = Except.ok patches) :
    AnalyzeCommit env hasParent =
      (if (GetStandardDiff patches).2.isEmpty then
        (Except.ok skippedResult, [CallEvent.stdDiffCall])
      else
        match env.fullDiffRes with
        | Except.error e =>
          (Except.error e, [CallEvent.stdDiffCall, CallEvent.fullDiffCall])
        | Except.ok _fullDiff =>
          match env.genText with
          | Except.error e =>
            (Except.error e,
             [CallEvent.stdDiffCall, CallEvent.fullDiffCall, CallEvent.modelCall])
          | Except.ok none =>
            (Except.error "empty response from gemini".toList,
             [CallEvent.stdDiffCall, CallEvent.fullDiffCall, CallEvent.modelCall])
          | Except.ok (some txt) =>
            let clean := FindJSONBlock env.objDecodes txt
            if clean.isEmpty then
              (Except.error "no JSON found in response".toList,
               [CallEvent.stdDiffCall, CallEvent.fullDiffCall, CallEvent.modelCall])
            else
              match env.decodeRes clean with
              | Except.error e =>
                (Except.error e,
                 [CallEvent.stdDiffCall, CallEvent.fullDiffCall, CallEvent.modelCall])
              | Except.ok decoded =>
                (Except.ok
                  ⟨(match decoded.1 with
                    | some s => Probability.UnmarshalJSON s
                    | none => []),
                   decoded.2, false⟩,
                 [CallEvent.stdDiffCall, CallEvent.fullDiffCall,
                  CallEvent.modelCall])) := by
  cases hasParent with
  | false =>
    unfold AnalyzeCommit
    rw [hsd]
  | true =>
    unfold AnalyzeCommit
    rw [hpe, hsd]

/-- C3: provided the parent lookup and the standard-diff computation succeed,
AnalyzeCommit returns the skipped result — immediately, with neither the full
diff computed nor the model invoked — exactly when the filtered modified-file
list of the standard diff is empty; every non-error result has Skipped equal
to that emptiness (so a commit with surviving changes is never reported
skipped); and a skipped outcome is tallied into the summary as Skipped, never
as a tier. -/
theorem analyzeCommit_skip_iff (env : AnalyzeEnv) (hasParent : Bool)
    (patches : List FilePatch) (hpe : env.parentErr = none)
    (hsd : env.stdDiffPatches = Except.ok patches) :
    ((GetStandardDiff patches).2 = [] ↔
      AnalyzeCommit env hasParent = (Except.ok skippedResult, [CallEvent.stdDiffCall]))
    ∧ (∀ r, (AnalyzeCommit env hasParent).1 = Except.ok r →
        r.Skipped = (GetStandardDiff patches).2.isEmpty)
    ∧ ((GetStandardDiff patches).2 = [] →
        CallEvent.fullDiffCall ∉ (AnalyzeCommit env hasParent).2
        ∧ CallEvent.modelCall ∉ (AnalyzeCommit env hasParent).2)
    ∧ (∀ s : AnalysisSummary,
        tallyResult s ⟨some skippedResult, none⟩
          = { s with Skipped := s.Skipped + 1 }) := by
  have hred := analyzeCommit_past_parent env hasParent hpe patches hsd
  by_cases hfe : (GetStandardDiff patches).2.isEmpty = true
  · have hfiles : (GetStandardDiff patches).2 = [] := by
      simpa using hfe
    have hskip : AnalyzeCommit env hasParent
        = (Except.ok skippedResult, [CallEvent.stdDiffCall]) := by
      rw [hred, if_pos hfe]
    refine ⟨⟨fun _ => hskip, fun _ => hfiles⟩, ?_, ?_, ?_⟩
    · intro r hr
      rw [hskip] at hr
      simp only at hr
      cases hr
      rw [hfe]
      rfl
    · intro _
      rw [hskip]
      constructor
      · intro hmem
        simp at hmem
      · intro hmem
        simp at hmem
    · intro s
      rfl
  · have hfiles : (GetStandardDiff patches).2 ≠ [] := by
      simpa using hfe
    have hnoskip : ∀ r, (AnalyzeCommit env hasParent).1 = Except.ok r →
        r.Skipped = false := by
      intro r hr
      rw [hred, if_neg hfe] at hr
      cases hfd : env.fullDiffRes with
      | error e =>
        rw [hfd] at hr
        simp only at hr
        cases hr
      | ok fullDiff =>
        rw [hfd] at hr
        simp only at hr
        cases hg : env.genText with
        | error e =>
          rw [hg] at hr
          simp only at hr
          cases hr
        | ok otxt =>
          rw [hg] at hr
          cases otxt with
          | none =>
            simp only at hr
            cases hr
          | some txt =>
            simp only at hr
            by_cases hclean : (FindJSONBlock env.objDecodes txt).isEmpty = true
            · rw [if_pos hclean] at hr
              cases hr
            · rw [if_neg hclean] at hr
              cases hdec : env.decodeRes (FindJSONBlock env.objDecodes txt) with
              | error e =>
                rw [hdec] at hr
                cases hr
              | ok decoded =>
                rw [hdec] at hr
                simp only [Except.ok.injEq] at hr
                rw [← hr]
    refine ⟨⟨fun h => absurd h hfiles, fun h => ?_⟩, ?_, fun h => absurd h hfiles,
      fun s => rfl⟩
    · have := hnoskip skippedResult (by rw [h])
      simp [skippedResult] at this
    · intro r hr
      have hfe2 : (GetStandardDiff patches).2.isEmpty = false := by
        simpa using hfe
      rw [hnoskip r hr, hfe2]

/-- A patch touching only a lock file, for the C3 witness. -/
def demoLockPatch : FilePatch :=
  ⟨false, none, some "go.sum".toList, [(1, "h1:abc".toList)]⟩

/-- The C3 witness environment: the standard diff sees only the lock-file
patch; the remaining oracles are never reached. -/
def skipDemoEnv : AnalyzeEnv :=
  ⟨none, Except.ok [demoLockPatch], Except.ok "full".toList,
   Except.error "unreached".toList, fun _ => false,
   fun _ => Except.error "unreached".toList⟩

/-- C3 witness: the lock-file-only commit has an empty filtered file list and
AnalyzeCommit returns the skipped result immediately, with only the standard
diff computed. -/
theorem analyzeCommit_skip_iff_witness :
    (GetStandardDiff [demoLockPatch]).2 = []
    ∧ AnalyzeCommit skipDemoEnv true
        = (Except.ok skippedResult, [CallEvent.stdDiffCall]) := by
  have hempty : (GetStandardDiff [demoLockPatch]).2 = [] := by decide
  have h := analyzeCommit_skip_iff skipDemoEnv true [demoLockPatch] rfl rfl
  exact ⟨hempty, h.1.mp hempty⟩

end GitDual
